import Mathlib

/-!
Verification of the concurrent-download-and-archive pipeline of the
Directory-Downloader repository (src/index.ts, vanilla variant).

JavaScript string operations are modelled over `List Char`:
`String.prototype.endsWith` / `startsWith` become suffix / prefix tests on
character lists, regex character-class replacement (`replaceAll(/[...]+/g, r)`)
becomes a run-replacing recursion, `trim` drops whitespace at both ends, and
`toLowerCase` maps `Char.toLower` (faithful on the ASCII data involved).
The p-map bounded-concurrency pool mutates the session state from one logical
thread (completion handlers on the run loop), so a batch is embedded as the
linearization of its per-file completions: a left fold over the batch list.
-/

namespace DirDl

/-- JS `haystack.endsWith(needle)`, modelled on the character lists. -/
def endsWithS (s suffix : String) : Bool :=
  suffix.data.isSuffixOf s.data

/-- JS `haystack.startsWith(needle)`, modelled on the character lists. -/
def startsWithS (s pre : String) : Bool :=
  pre.data.isPrefixOf s.data

/-- JS `String.prototype.toLowerCase`, ASCII-faithful model. -/
def toLowerS (s : String) : String :=
  ⟨s.data.map Char.toLower⟩

/-- Run-replacement worker: `inRun` records whether the previous character was
in the class `p` (so the run's single replacement `r` was already emitted). -/
def replaceRunsGo (p : Char → Bool) (r : Char) : Bool → List Char → List Char
  | _, [] => []
  | inRun, c :: cs =>
    if p c then
      if inRun then replaceRunsGo p r true cs
      else r :: replaceRunsGo p r true cs
    else c :: replaceRunsGo p r false cs

/-- Each maximal run of `p`-characters is replaced by the single character `r`:
the model of JS `replaceAll(/[class]+/g, r)` for a character class `p`. -/
def replaceRuns (p : Char → Bool) (r : Char) (l : List Char) : List Char :=
  replaceRunsGo p r false l

/-- JS `String.prototype.trim`: drop whitespace at both ends. -/
def trimList (l : List Char) : List Char :=
  ((l.dropWhile Char.isWhitespace).reverse.dropWhile Char.isWhitespace).reverse

/-- The forbidden-filename character class `[<>:"/\\|?*]` of `sanitizeFilename`. -/
def forbiddenChar (c : Char) : Bool :=
  c = '<' || c = '>' || c = ':' || c = '"' || c = '/' || c = '\\' ||
    c = '|' || c = '?' || c = '*'

/-- src/index.ts `sanitizeFilename`: replace each run of forbidden characters
by `'-'`, collapse each whitespace run to a single space, trim. -/
def sanitizeFilename (filename : String) : String :=
  ⟨trimList (replaceRuns Char.isWhitespace ' '
      (replaceRuns forbiddenChar '-' filename.data))⟩

/-- src/index.ts `ensureZipFilename`. -/
def ensureZipFilename (filename : String) : String :=
  let cleaned := sanitizeFilename filename
  let safe := if cleaned.data.length > 0 then cleaned else "downloaded-directory"
  if endsWithS safe ".zip" then safe else safe ++ ".zip"

/-- A listed remote file: `TreeResponseObject | ContentsReponseObject` restricted
to the fields the pipeline reads (`path`, and `size` when it is a number). -/
structure RepoFile where
  path : String
  size : Option Nat
deriving DecidableEq, Repr

/-- JS `value.split(',')` on the character list: `[""]` for the empty string,
and a (possibly empty) field between every pair of adjacent commas. -/
def splitComma : List Char → List (List Char)
  | [] => [[]]
  | c :: cs =>
    if c = ',' then [] :: splitComma cs
    else
      match splitComma cs with
      | [] => [[c]]
      | field :: rest => (c :: field) :: rest

/-- src/index.ts `parseFilter`, applied to the raw filter input string: split on
commas, trim and lowercase each entry, drop empties, prepend `'.'` if missing. -/
def parseFilter (value : String) : List String :=
  (((splitComma value.data).map (fun v => toLowerS ⟨trimList v⟩)
    |>.filter (fun v => v ≠ ""))
    |>.map (fun v => if startsWithS v "." then v else "." ++ v))

/-- src/index.ts `filterFiles`. -/
def filterFiles (files : List RepoFile) (extensions : List String) : List RepoFile :=
  if extensions.length = 0 then files
  else files.filter
    (fun file => extensions.any (fun extension => endsWithS (toLowerS file.path) extension))

/-- src/index.ts `estimateBytes`: sum the sizes that are present. -/
def estimateBytes (files : List RepoFile) : Nat :=
  files.foldl
    (fun total file => match file.size with
      | some n => total + n
      | none => total) 0

/-- `pat.toList` occurs as a contiguous substring of `s.toList`: the model of a
fixed-word regex test such as `/malware/.test(s)`. -/
def containsSub (s pat : String) : Bool :=
  decide (pat.data <:+: s.data)

/-- src/index.ts `blockedWords = /malware|virus|trojan/i` applied via `.test`. -/
def blockedWordsTest (s : String) : Bool :=
  containsSub (toLowerS s) "malware" || containsSub (toLowerS s) "virus" ||
    containsSub (toLowerS s) "trojan"

/-- JS `s.replace(pat, "")` for a string pattern: remove the first occurrence
of `pat`, if any (JS `String.prototype.replace` rewrites only the first match). -/
def removeFirst (s pat : List Char) : List Char :=
  match s with
  | [] => []
  | c :: rest =>
    if pat.isPrefixOf (c :: rest) then (c :: rest).drop pat.length
    else c :: removeFirst rest pat

/-- Archive entry path: src/index.ts line 586,
`options.directory ? file.path.replace(directory + "/", "") : file.path`. -/
def relativePath (directory path : String) : String :=
  if directory = "" then path
  else ⟨removeFirst path.data (directory ++ "/").data⟩

/-- The per-job slice of `downloadState` touched by `downloadBatch`, plus the
archive builder contents and the log of issued file fetches. -/
structure SessionState where
  totalFiles : Nat
  downloadedFiles : Nat
  failedFiles : List String
  estimatedBytes : Nat
  zipEntries : List (String × Nat)
  attempted : List String
deriving DecidableEq, Repr

/-- One settled fetch inside `downloadBatch` (src/index.ts lines 574-598): a
failure pushes the path onto `failedFiles`; a success adds the payload to the
zip under `relativePath` and increments `downloadedFiles`. `fail` is the
outcome assignment of this pass and `bytes` the payload contents by path. -/
def processFile (directory : String) (fail : String → Bool) (bytes : String → Nat)
    (st : SessionState) (file : RepoFile) : SessionState :=
  if fail file.path then
    { st with failedFiles := st.failedFiles ++ [file.path],
              attempted := st.attempted ++ [file.path] }
  else
    { st with downloadedFiles := st.downloadedFiles + 1,
              zipEntries := st.zipEntries ++ [(relativePath directory file.path, bytes file.path)],
              attempted := st.attempted ++ [file.path] }

/-- src/index.ts `downloadBatch`: the linearization of one bounded-concurrency
`pMap` pass over `batch`. -/
def downloadBatch (directory : String) (fail : String → Bool) (bytes : String → Nat)
    (st : SessionState) (batch : List RepoFile) : SessionState :=
  batch.foldl (processFile directory fail bytes) st

/-- Session state right before the first pass (src/index.ts lines 559-570):
`totalFiles` and `estimatedBytes` set from the filtered list, counters reset. -/
def initState (files : List RepoFile) (filt : List String) : SessionState :=
  { totalFiles := (filterFiles files filt).length
    downloadedFiles := 0
    failedFiles := []
    estimatedBytes := estimateBytes (filterFiles files filt)
    zipEntries := []
    attempted := [] }

/-- State after the first full pass (src/index.ts line 603). `fail1` assigns
the pass-1 outcome of each path. -/
def pass1State (files : List RepoFile) (filt : List String) (directory : String)
    (fail1 : String → Bool) (bytes : String → Nat) : SessionState :=
  downloadBatch directory fail1 bytes (initState files filt) (filterFiles files filt)

/-- The retry subset (src/index.ts line 605): the filtered descriptors whose
path is in the failure record captured after pass 1. -/
def retryTargets (files : List RepoFile) (filt : List String) (directory : String)
    (fail1 : String → Bool) (bytes : String → Nat) : List RepoFile :=
  (filterFiles files filt).filter
    (fun file => (pass1State files filt directory fail1 bytes).failedFiles.contains file.path)

/-- Final session state of the job (src/index.ts lines 602-609): if pass 1
recorded failures, clear the record and run one retry pass over the captured
subset; otherwise the pass-1 state stands. No further retry exists. -/
def finalState (files : List RepoFile) (filt : List String) (directory : String)
    (fail1 fail2 : String → Bool) (bytes : String → Nat) : SessionState :=
  let st1 := pass1State files filt directory fail1 bytes
  if st1.failedFiles.isEmpty then st1
  else downloadBatch directory fail2 bytes { st1 with failedFiles := [] }
    (retryTargets files filt directory fail1 bytes)

/-- Terminal result of `downloadDirectory` after listing succeeded. -/
inductive DirResult where
  | noFiles
  | noMatch
  | blocked
  | completed (st : SessionState)
deriving DecidableEq, Repr

/-- src/index.ts `downloadDirectory` from the listed `files` on: the guard
cascade (lines 541-557) and the two download passes, paired with the global
log of file fetches actually issued. -/
def downloadDirectory (files : List RepoFile) (filt : List String) (directory : String)
    (fail1 fail2 : String → Bool) (bytes : String → Nat) : DirResult × List String :=
  if files.length = 0 then (.noFiles, [])
  else if (filterFiles files filt).length = 0 then (.noMatch, [])
  else if (filterFiles files filt).any (fun file => blockedWordsTest file.path) then
    (.blocked, [])
  else
    let st := finalState files filt directory fail1 fail2 bytes
    (.completed st, st.attempted)

/-- All session states reachable during the job's active passes: the pass-1
trace from the initial state, then (when a retry runs) the retry-pass trace
from the cleared state. -/
def jobTrace (files : List RepoFile) (filt : List String) (directory : String)
    (fail1 fail2 : String → Bool) (bytes : String → Nat) : List SessionState :=
  let st1 := pass1State files filt directory fail1 bytes
  (filterFiles files filt).scanl (processFile directory fail1 bytes) (initState files filt)
    ++ (if st1.failedFiles.isEmpty then []
        else (retryTargets files filt directory fail1 bytes).scanl
          (processFile directory fail2 bytes) { st1 with failedFiles := [] })

/-- src/index.ts `QueueItem`. -/
structure QueueItem where
  url : String
  filename : Option String
  filterStr : Option String
deriving DecidableEq, Repr

/-- Terminal outcome of one `runDownload` invocation. -/
inductive JobOutcome where
  | completed
  | cancelled
deriving DecidableEq, Repr

/-- Whether `runDownload` reaches `saveFile` for a job with this outcome:
an abort is caught at src/index.ts line 722 before any archive is saved. -/
def jobSavesArchive : JobOutcome → Bool
  | .completed => true
  | .cancelled => false

/-- src/index.ts `processQueue` loop (lines 762-771): shift the front item and
await `runDownload` on it while the queue is non-empty. `runDownload` catches
every error - including an abort - and returns normally (lines 721-747), so the
loop keeps consuming items whatever each job's outcome is. Returns the run
jobs in order with their outcomes. -/
def processQueue (queue : List QueueItem) (outcome : QueueItem → JobOutcome) :
    List (QueueItem × JobOutcome) :=
  match queue with
  | [] => []
  | item :: rest => (item, outcome item) :: processQueue rest outcome

/-- The queue left behind by src/index.ts `clearAll` (line 234), the handler of
the cancel button: it aborts the running job's controller and then discards
every pending queue entry. -/
def clearAllQueue (_queue : List QueueItem) : List QueueItem :=
  []

/-- src/index.ts `readRecentUrls`: the parsed stored value, `none` when the
stored JSON is unparseable or not an array; non-strings are dropped before
this model, and the result is truncated to 7 entries. -/
def readRecentUrls (stored : Option (List String)) : List String :=
  match stored with
  | none => []
  | some urls => urls.take 7

/-- src/index.ts `writeRecentUrls`: the list actually stored. -/
def writeRecentUrls (urls : List String) : List String :=
  urls.take 7

/-- src/index.ts `pushRecentUrl`: read, drop duplicates of `url`, unshift it to
the front, write back. Returns the newly stored list. -/
def pushRecentUrl (stored : Option (List String)) (url : String) : List String :=
  writeRecentUrls (url :: (readRecentUrls stored).filter (fun item => item ≠ url))

/-- JS `parseInt(s, 10)`: skip leading whitespace, optional sign, then the
longest run of decimal digits; `none` (NaN) when no digit follows. -/
def jsParseInt10 (s : String) : Option Int :=
  let l := s.data.dropWhile Char.isWhitespace
  let digits (ds : List Char) : Option Nat :=
    let run := ds.takeWhile Char.isDigit
    if run.isEmpty then none
    else some (run.foldl (fun a c => a * 10 + (c.toNat - 48)) 0)
  match l with
  | '+' :: rest => (digits rest).map Int.ofNat
  | '-' :: rest => (digits rest).map (fun n => -(n : Int))
  | rest => (digits rest).map Int.ofNat

/-- src/index.ts lines 565-566: parse the concurrency input and clamp,
`Number.isNaN(c) ? 20 : Math.max(1, Math.min(40, c))`. -/
def safeConcurrency (value : String) : Int :=
  match jsParseInt10 value with
  | none => 20
  | some c => max 1 (min 40 c)

/-- A concrete queued job (for the cancellation scenario). -/
def itemA : QueueItem :=
  { url := "https://github.com/u/r/tree/main/a", filename := none, filterStr := none }

/-- A second concrete queued job, pending behind `itemA`. -/
def itemB : QueueItem :=
  { url := "https://github.com/u/r/tree/main/b", filename := none, filterStr := none }

/-- Outcome assignment in which the running job `itemA` is cancelled and every
other job completes. -/
def outcAB : QueueItem → JobOutcome :=
  fun i => if i = itemA then JobOutcome.cancelled else JobOutcome.completed

/-! ## Helper lemmas -/

theorem downloadBatch_nil (directory : String) (fail : String → Bool) (bytes : String → Nat)
    (st : SessionState) : downloadBatch directory fail bytes st [] = st :=
  rfl

theorem downloadBatch_cons (directory : String) (fail : String → Bool) (bytes : String → Nat)
    (st : SessionState) (f : RepoFile) (fs : List RepoFile) :
    downloadBatch directory fail bytes st (f :: fs) =
      downloadBatch directory fail bytes (processFile directory fail bytes st f) fs :=
  rfl

theorem downloadBatch_eq (directory : String) (fail : String → Bool) (bytes : String → Nat)
    (st : SessionState) (batch : List RepoFile) :
    downloadBatch directory fail bytes st batch =
      { totalFiles := st.totalFiles
        downloadedFiles :=
          st.downloadedFiles + (batch.filter (fun f => !fail f.path)).length
        failedFiles :=
          st.failedFiles ++ (batch.filter (fun f => fail f.path)).map RepoFile.path
        estimatedBytes := st.estimatedBytes
        zipEntries := st.zipEntries ++ (batch.filter (fun f => !fail f.path)).map
          (fun f => (relativePath directory f.path, bytes f.path))
        attempted := st.attempted ++ batch.map RepoFile.path } := by
  induction batch generalizing st with
  | nil => simp [downloadBatch_nil]
  | cons f fs ih =>
    rw [downloadBatch_cons, ih]
    by_cases h : fail f.path
    · simp [processFile, h, List.filter_cons]
    · simp [processFile, h, List.filter_cons]
      omega

theorem mem_scanl {α β : Type} (f : β → α → β) (b : β) (l : List α) (x : β) :
    x ∈ List.scanl f b l ↔ ∃ n, n ≤ l.length ∧ x = (l.take n).foldl f b := by
  induction l generalizing b with
  | nil =>
    simp only [List.scanl_nil, List.mem_singleton, List.length_nil, Nat.le_zero]
    constructor
    · rintro rfl
      exact ⟨0, rfl, by simp⟩
    · rintro ⟨n, rfl, rfl⟩
      simp
  | cons a l ih =>
    rw [List.scanl_cons]
    simp only [List.singleton_append, List.mem_cons, ih (f b a), List.length_cons]
    constructor
    · rintro (rfl | ⟨n, hn, rfl⟩)
      · exact ⟨0, Nat.zero_le _, by simp⟩
      · exact ⟨n + 1, by omega, by simp [List.take_succ_cons]⟩
    · rintro ⟨n, hn, rfl⟩
      cases n with
      | zero => left; simp
      | succ m => right; exact ⟨m, by omega, by simp [List.take_succ_cons]⟩

theorem pass1State_eq (files : List RepoFile) (filt : List String) (directory : String)
    (fail1 : String → Bool) (bytes : String → Nat) :
    pass1State files filt directory fail1 bytes =
      { totalFiles := (filterFiles files filt).length
        downloadedFiles := ((filterFiles files filt).filter (fun f => !fail1 f.path)).length
        failedFiles :=
          ((filterFiles files filt).filter (fun f => fail1 f.path)).map RepoFile.path
        estimatedBytes := estimateBytes (filterFiles files filt)
        zipEntries := ((filterFiles files filt).filter (fun f => !fail1 f.path)).map
          (fun f => (relativePath directory f.path, bytes f.path))
        attempted := (filterFiles files filt).map RepoFile.path } := by
  rw [pass1State, downloadBatch_eq]
  simp [initState]

theorem retryTargets_eq (files : List RepoFile) (filt : List String) (directory : String)
    (fail1 : String → Bool) (bytes : String → Nat)
    (hnd : ((filterFiles files filt).map RepoFile.path).Nodup) :
    retryTargets files filt directory fail1 bytes =
      (filterFiles files filt).filter (fun f => fail1 f.path) := by
  unfold retryTargets
  apply List.filter_congr
  intro f hf
  rw [pass1State_eq]
  cases hb : fail1 f.path with
  | true =>
    simp only []
    have : f.path ∈ ((filterFiles files filt).filter (fun f => fail1 f.path)).map
        RepoFile.path :=
      List.mem_map_of_mem _ (List.mem_filter.mpr ⟨hf, hb⟩)
    simp [this]
  | false =>
    simp only []
    have : f.path ∉ ((filterFiles files filt).filter (fun f => fail1 f.path)).map
        RepoFile.path := by
      intro hmem
      obtain ⟨g, hg, hgp⟩ := List.mem_map.mp hmem
      obtain ⟨hgmem, hgfail⟩ := List.mem_filter.mp hg
      have : g = f := List.inj_on_of_nodup_map hnd hgmem hf hgp
      rw [this] at hgfail
      rw [hgfail] at hb
      exact absurd hb (by simp)
    simp [this]

theorem finalState_eq (files : List RepoFile) (filt : List String) (directory : String)
    (fail1 fail2 : String → Bool) (bytes : String → Nat)
    (hnd : ((filterFiles files filt).map RepoFile.path).Nodup) :
    finalState files filt directory fail1 fail2 bytes =
      { totalFiles := (filterFiles files filt).length
        downloadedFiles := ((filterFiles files filt).filter (fun f => !fail1 f.path)).length
          + (((filterFiles files filt).filter (fun f => fail1 f.path)).filter
              (fun f => !fail2 f.path)).length
        failedFiles := (((filterFiles files filt).filter (fun f => fail1 f.path)).filter
          (fun f => fail2 f.path)).map RepoFile.path
        estimatedBytes := estimateBytes (filterFiles files filt)
        zipEntries := ((filterFiles files filt).filter (fun f => !fail1 f.path)).map
            (fun f => (relativePath directory f.path, bytes f.path))
          ++ (((filterFiles files filt).filter (fun f => fail1 f.path)).filter
              (fun f => !fail2 f.path)).map
            (fun f => (relativePath directory f.path, bytes f.path))
        attempted := (filterFiles files filt).map RepoFile.path
          ++ ((filterFiles files filt).filter (fun f => fail1 f.path)).map RepoFile.path } := by
  unfold finalState
  by_cases hemp : (pass1State files filt directory fail1 bytes).failedFiles.isEmpty
  · rw [if_pos hemp]
    have hnil : (filterFiles files filt).filter (fun f => fail1 f.path) = [] := by
      have := hemp
      rw [pass1State_eq] at this
      simp only [List.isEmpty_iff, List.map_eq_nil_iff] at this
      exact this
    rw [pass1State_eq, hnil]
    simp
  · rw [if_neg hemp, retryTargets_eq files filt directory fail1 bytes hnd,
      downloadBatch_eq, pass1State_eq]
    simp

theorem length_filter_split {α : Type} (p : α → Bool) (l : List α) :
    (l.filter p).length + (l.filter (fun a => !p a)).length = l.length := by
  induction l with
  | nil => rfl
  | cons a l ih =>
    by_cases h : p a <;> simp [List.filter_cons, h] <;> omega

theorem toLower_not_upper (c : Char) : (Char.toLower c).isUpper = false := by
  simp only [Char.toLower, Char.isUpper]
  split
  · next h =>
    obtain ⟨h1, h2⟩ := h
    have hvalid : ((c.toNat + 32)).isValidChar := by
      left
      have : c.toNat ≤ 90 := h2
      omega
    have hval : (Char.ofNat (c.toNat + 32)).toNat = c.toNat + 32 := by
      simp only [Char.ofNat, hvalid, dite_true]
      simp [Char.ofNatAux, Char.toNat, UInt32.toNat, BitVec.toNat_ofNatLt]
    have h90 : ¬ ((Char.ofNat (c.toNat + 32)).val ≤ (90 : UInt32)) := by
      intro hle
      have hn : (Char.ofNat (c.toNat + 32)).val.toNat ≤ (90 : UInt32).toNat := hle
      have h90n : (90 : UInt32).toNat = 90 := by decide
      rw [h90n] at hn
      have : (Char.ofNat (c.toNat + 32)).toNat ≤ 90 := hn
      omega
    simp [h90]
  · next h =>
    rw [Bool.and_eq_false_iff]
    by_cases h65 : (c.val ≥ (65 : UInt32))
    · right
      simp only [decide_eq_false_iff_not]
      intro h90
      apply h
      constructor
      · have : (65 : UInt32).toNat ≤ c.val.toNat := h65
        simpa [Char.toNat] using this
      · have : c.val.toNat ≤ (90 : UInt32).toNat := h90
        simpa [Char.toNat] using this
    · left
      simp [h65]

theorem estimateBytes_foldl (files : List RepoFile) (acc : Nat) :
    files.foldl
      (fun total file => match file.size with
        | some n => total + n
        | none => total) acc =
      acc + (files.map (fun f => f.size.getD 0)).sum := by
  induction files generalizing acc with
  | nil => simp
  | cons f fs ih =>
    cases h : f.size <;> simp [List.foldl_cons, h, ih] <;> omega

theorem mem_replaceRunsGo (p : Char → Bool) (r : Char) (b : Bool) (l : List Char) :
    ∀ c ∈ replaceRunsGo p r b l, c = r ∨ (c ∈ l ∧ p c = false) := by
  induction l generalizing b with
  | nil =>
    intro c hc
    simp [replaceRunsGo] at hc
  | cons a l ih =>
    intro c hc
    by_cases hp : p a
    · cases b with
      | true =>
        simp only [replaceRunsGo, hp, if_true] at hc
        rcases ih true c hc with h | ⟨h1, h2⟩
        · exact Or.inl h
        · exact Or.inr ⟨List.mem_cons_of_mem _ h1, h2⟩
      | false =>
        simp only [replaceRunsGo, hp, if_true] at hc
        rcases List.mem_cons.mp hc with h | h
        · exact Or.inl h
        · rcases ih true c h with h2 | ⟨h3, h4⟩
          · exact Or.inl h2
          · exact Or.inr ⟨List.mem_cons_of_mem _ h3, h4⟩
    · simp only [replaceRunsGo, hp, if_false] at hc
      rcases List.mem_cons.mp hc with h | h
      · subst h
        exact Or.inr ⟨List.mem_cons_self _ _, by simpa using hp⟩
      · rcases ih false c h with h2 | ⟨h3, h4⟩
        · exact Or.inl h2
        · exact Or.inr ⟨List.mem_cons_of_mem _ h3, h4⟩

theorem head_replaceRunsGo_true (p : Char → Bool) (r : Char) (l : List Char) :
    ∀ c, (replaceRunsGo p r true l).head? = some c → p c = false := by
  induction l with
  | nil =>
    intro c hc
    simp [replaceRunsGo] at hc
  | cons a l ih =>
    intro c hc
    by_cases hp : p a
    · simp only [replaceRunsGo, hp, if_true] at hc
      exact ih c hc
    · simp only [replaceRunsGo, hp, if_false, List.head?_cons] at hc
      injection hc with h
      subst h
      simpa using hp

theorem chain_replaceRunsGo (p : Char → Bool) (r : Char) (b : Bool) (l : List Char) :
    List.Chain' (fun x y => ¬(p x = true ∧ p y = true)) (replaceRunsGo p r b l) := by
  induction l generalizing b with
  | nil => simp [replaceRunsGo]
  | cons a l ih =>
    by_cases hp : p a
    · cases b with
      | true => simpa only [replaceRunsGo, hp, if_true] using ih true
      | false =>
        simp only [replaceRunsGo, hp, Bool.false_eq_true, if_true, if_false]
        rw [List.chain'_cons']
        refine ⟨?_, ih true⟩
        intro y hy
        rintro ⟨-, hpy⟩
        have hf := head_replaceRunsGo_true p r l y hy
        rw [hpy] at hf
        cases hf
    · simp only [replaceRunsGo, hp, Bool.false_eq_true, if_true, if_false]
      rw [List.chain'_cons']
      refine ⟨?_, ih false⟩
      intro y hy
      rintro ⟨hpa, -⟩
      exact hp hpa

theorem mem_trimList (l : List Char) (c : Char) (hc : c ∈ trimList l) : c ∈ l := by
  unfold trimList at hc
  rw [List.mem_reverse] at hc
  have h1 := (List.dropWhile_sublist Char.isWhitespace).subset hc
  rw [List.mem_reverse] at h1
  exact (List.dropWhile_sublist Char.isWhitespace).subset h1

theorem head_dropWhile_not (p : Char → Bool) (l : List Char) :
    ∀ c, (l.dropWhile p).head? = some c → p c = false := by
  induction l with
  | nil =>
    intro c hc
    simp at hc
  | cons a l ih =>
    intro c hc
    by_cases hp : p a
    · rw [List.dropWhile_cons, if_pos hp] at hc
      exact ih c hc
    · rw [List.dropWhile_cons, if_neg hp, List.head?_cons] at hc
      injection hc with h
      subst h
      simpa using hp

theorem trimList_getLast (l : List Char) :
    ∀ c, (trimList l).getLast? = some c → Char.isWhitespace c = false := by
  intro c hc
  unfold trimList at hc
  rw [List.getLast?_reverse] at hc
  exact head_dropWhile_not _ _ c hc

theorem trimList_head (l : List Char) :
    ∀ c, (trimList l).head? = some c → Char.isWhitespace c = false := by
  intro c hc
  unfold trimList at hc
  rw [List.head?_reverse] at hc
  obtain ⟨t, ht⟩ :=
    List.dropWhile_suffix (l := (List.dropWhile Char.isWhitespace l).reverse)
      Char.isWhitespace
  have hur : ((List.dropWhile Char.isWhitespace l).reverse).getLast? = some c := by
    rw [← ht, List.getLast?_append, hc]
    rfl
  rw [List.getLast?_reverse] at hur
  exact head_dropWhile_not _ _ c hur

theorem chain_trimList (R : Char → Char → Prop) (hsymm : ∀ x y, R x y → R y x)
    (l : List Char) (h : List.Chain' R l) : List.Chain' R (trimList l) := by
  unfold trimList
  have h1 : List.Chain' R (l.dropWhile Char.isWhitespace) :=
    h.suffix (List.dropWhile_suffix _)
  have h2 : List.Chain' R ((l.dropWhile Char.isWhitespace).reverse) := by
    rw [List.chain'_reverse]
    exact h1.imp (fun a b hab => hsymm a b hab)
  have h3 := h2.suffix (List.dropWhile_suffix Char.isWhitespace)
  rw [List.chain'_reverse]
  exact h3.imp (fun a b hab => hsymm a b hab)

theorem sanitize_chars (s : String) :
    ∀ c ∈ (sanitizeFilename s).data,
      forbiddenChar c = false ∧ (Char.isWhitespace c = true → c = ' ') := by
  intro c hc
  have hc2 : c ∈ replaceRuns Char.isWhitespace ' '
      (replaceRuns forbiddenChar '-' s.data) :=
    mem_trimList _ c hc
  rcases mem_replaceRunsGo _ _ _ _ c hc2 with h | ⟨h1, h2⟩
  · subst h
    exact ⟨by decide, fun _ => rfl⟩
  · rcases mem_replaceRunsGo _ _ _ _ c h1 with h3 | ⟨h4, h5⟩
    · subst h3
      exact ⟨by decide, fun hw => absurd hw (by decide)⟩
    · exact ⟨h5, fun hw => absurd h2 (by rw [hw]; simp)⟩

theorem endsWithS_append_zip (s : String) : endsWithS (s ++ ".zip") ".zip" = true := by
  simp only [endsWithS]
  rw [List.isSuffixOf_iff_suffix, String.data_append]
  exact List.suffix_append _ _

/-! ## Claim theorems -/

/-- Claim C1: after the first full pass, the retry pass runs exactly over the
descriptors whose path was captured in the failure record (the record having
been cleared first), no further retry occurs, a file failing pass 1 but
succeeding pass 2 is absent from the final failedPaths and contributes to the
archive, a file failing both passes appears exactly once in the final
failedPaths, and the job completes producing an archive from the successes. -/
theorem retry_coordinator_spec (files : List RepoFile) (filt : List String)
    (directory : String) (fail1 fail2 : String → Bool) (bytes : String → Nat)
    (hnd : ((filterFiles files filt).map RepoFile.path).Nodup) :
    retryTargets files filt directory fail1 bytes =
        (filterFiles files filt).filter (fun f => fail1 f.path) ∧
    (finalState files filt directory fail1 fail2 bytes).failedFiles =
        (((filterFiles files filt).filter (fun f => fail1 f.path)).filter
          (fun f => fail2 f.path)).map RepoFile.path ∧
    (finalState files filt directory fail1 fail2 bytes).failedFiles.Nodup ∧
    (∀ f ∈ filterFiles files filt, fail1 f.path = true → fail2 f.path = false →
      f.path ∉ (finalState files filt directory fail1 fail2 bytes).failedFiles ∧
        (relativePath directory f.path, bytes f.path) ∈
          (finalState files filt directory fail1 fail2 bytes).zipEntries) ∧
    (finalState files filt directory fail1 fail2 bytes).zipEntries =
        ((filterFiles files filt).filter (fun f => !fail1 f.path)).map
            (fun f => (relativePath directory f.path, bytes f.path))
          ++ (((filterFiles files filt).filter (fun f => fail1 f.path)).filter
              (fun f => !fail2 f.path)).map
            (fun f => (relativePath directory f.path, bytes f.path)) ∧
    (files.length ≠ 0 → (filterFiles files filt).length ≠ 0 →
      (filterFiles files filt).any (fun file => blockedWordsTest file.path) = false →
      downloadDirectory files filt directory fail1 fail2 bytes =
        (DirResult.completed (finalState files filt directory fail1 fail2 bytes),
          (finalState files filt directory fail1 fail2 bytes).attempted)) := by
  have hfin := finalState_eq files filt directory fail1 fail2 bytes hnd
  have hfailed : (finalState files filt directory fail1 fail2 bytes).failedFiles =
      (((filterFiles files filt).filter (fun f => fail1 f.path)).filter
        (fun f => fail2 f.path)).map RepoFile.path := by
    rw [hfin]
  refine ⟨retryTargets_eq files filt directory fail1 bytes hnd, hfailed, ?_, ?_, ?_, ?_⟩
  · rw [hfailed]
    exact hnd.sublist (List.Sublist.map RepoFile.path
      ((List.filter_sublist _).trans (List.filter_sublist _)))
  · intro f hf h1 h2
    constructor
    · rw [hfailed]
      intro hmem
      obtain ⟨g, hg, hgp⟩ := List.mem_map.mp hmem
      obtain ⟨hg1, hg2⟩ := List.mem_filter.mp hg
      obtain ⟨hgmem, _⟩ := List.mem_filter.mp hg1
      have : g = f := List.inj_on_of_nodup_map hnd hgmem hf hgp
      rw [this] at hg2
      rw [h2] at hg2
      exact absurd hg2 (by simp)
    · rw [hfin]
      refine List.mem_append_right _ (List.mem_map_of_mem _ ?_)
      exact List.mem_filter.mpr ⟨List.mem_filter.mpr ⟨hf, h1⟩, by rw [h2]; rfl⟩
  · rw [hfin]
  · intro h1 h2 h3
    unfold downloadDirectory
    rw [if_neg h1, if_neg h2, if_neg (by rw [h3]; simp)]

/-- Claim C1 witness: a concrete three-file job in which `b.ts` fails pass 1
and succeeds pass 2 while `c.md` fails both passes. -/
theorem retry_coordinator_spec_witness :
    (finalState [⟨"a.ts", some 1⟩, ⟨"b.ts", none⟩, ⟨"c.md", some 2⟩] [] ""
        (fun p => p == "b.ts" || p == "c.md") (fun p => p == "c.md")
        (fun _ => 5)).failedFiles = ["c.md"] ∧
    "b.ts" ∉ (finalState [⟨"a.ts", some 1⟩, ⟨"b.ts", none⟩, ⟨"c.md", some 2⟩] [] ""
        (fun p => p == "b.ts" || p == "c.md") (fun p => p == "c.md")
        (fun _ => 5)).failedFiles ∧
    ("b.ts", 5) ∈ (finalState [⟨"a.ts", some 1⟩, ⟨"b.ts", none⟩, ⟨"c.md", some 2⟩] [] ""
        (fun p => p == "b.ts" || p == "c.md") (fun p => p == "c.md")
        (fun _ => 5)).zipEntries ∧
    downloadDirectory [⟨"a.ts", some 1⟩, ⟨"b.ts", none⟩, ⟨"c.md", some 2⟩] [] ""
        (fun p => p == "b.ts" || p == "c.md") (fun p => p == "c.md") (fun _ => 5) =
      (DirResult.completed (finalState [⟨"a.ts", some 1⟩, ⟨"b.ts", none⟩, ⟨"c.md", some 2⟩]
          [] "" (fun p => p == "b.ts" || p == "c.md") (fun p => p == "c.md") (fun _ => 5)),
        (finalState [⟨"a.ts", some 1⟩, ⟨"b.ts", none⟩, ⟨"c.md", some 2⟩] [] ""
          (fun p => p == "b.ts" || p == "c.md") (fun p => p == "c.md")
          (fun _ => 5)).attempted) := by
  have h := retry_coordinator_spec [⟨"a.ts", some 1⟩, ⟨"b.ts", none⟩, ⟨"c.md", some 2⟩] [] ""
    (fun p => p == "b.ts" || p == "c.md") (fun p => p == "c.md") (fun _ => 5) (by decide)
  obtain ⟨hb1, hb2⟩ := h.2.2.2.1 ⟨"b.ts", none⟩ (by decide) (by decide) (by decide)
  exact ⟨by rw [h.2.1]; decide, hb1, hb2,
    h.2.2.2.2.2 (by decide) (by decide) (by decide)⟩

/-- Claim C3: in every reachable state of the job's active passes, the number
of downloaded files plus the number of failed paths never exceeds totalFiles,
and totalFiles keeps the value fixed when filtering completed. -/
theorem progress_invariant (files : List RepoFile) (filt : List String)
    (directory : String) (fail1 fail2 : String → Bool) (bytes : String → Nat)
    (hnd : ((filterFiles files filt).map RepoFile.path).Nodup) :
    ∀ st ∈ jobTrace files filt directory fail1 fail2 bytes,
      st.downloadedFiles + st.failedFiles.length ≤ st.totalFiles ∧
      st.totalFiles = (filterFiles files filt).length := by
  intro st hst
  unfold jobTrace at hst
  rw [List.mem_append] at hst
  rcases hst with h | h
  · rw [mem_scanl] at h
    obtain ⟨n, hn, rfl⟩ := h
    rw [show ((filterFiles files filt).take n).foldl (processFile directory fail1 bytes)
        (initState files filt) = downloadBatch directory fail1 bytes (initState files filt)
        ((filterFiles files filt).take n) from rfl, downloadBatch_eq]
    have hsplit := length_filter_split (fun f : RepoFile => fail1 f.path)
      ((filterFiles files filt).take n)
    have htake : ((filterFiles files filt).take n).length ≤ (filterFiles files filt).length :=
      List.length_take_le' n _
    constructor
    · simp only [initState, List.length_append, List.length_map, List.nil_append,
        List.length_nil, Nat.zero_add]
      omega
    · simp [initState]
  · split at h
    · simp at h
    · next hemp =>
      rw [mem_scanl] at h
      obtain ⟨n, hn, rfl⟩ := h
      rw [show ((retryTargets files filt directory fail1 bytes).take n).foldl
          (processFile directory fail2 bytes)
          { pass1State files filt directory fail1 bytes with failedFiles := [] } =
          downloadBatch directory fail2 bytes
            { pass1State files filt directory fail1 bytes with failedFiles := [] }
            ((retryTargets files filt directory fail1 bytes).take n) from rfl,
        downloadBatch_eq]
      have hsplit2 := length_filter_split (fun f : RepoFile => fail2 f.path)
        ((retryTargets files filt directory fail1 bytes).take n)
      have htake2 : ((retryTargets files filt directory fail1 bytes).take n).length ≤
          (retryTargets files filt directory fail1 bytes).length :=
        List.length_take_le' n _
      have hrt : (retryTargets files filt directory fail1 bytes).length =
          ((filterFiles files filt).filter (fun f => fail1 f.path)).length := by
        rw [retryTargets_eq files filt directory fail1 bytes hnd]
      have hsplit1 := length_filter_split (fun f : RepoFile => fail1 f.path)
        (filterFiles files filt)
      have hp1 := pass1State_eq files filt directory fail1 bytes
      constructor
      · rw [hp1]
        simp only [List.length_append, List.length_map, List.nil_append, List.length_nil]
        omega
      · rw [hp1]

/-- Claim C3 witness: the invariant instantiated at the pass-1 state of the
concrete job of two files in which `b.ts` fails both passes. -/
theorem progress_invariant_witness :
    (pass1State [⟨"a.ts", some 1⟩, ⟨"b.ts", none⟩] [] ""
        (fun p => p == "b.ts") (fun _ => 5)).downloadedFiles +
      (pass1State [⟨"a.ts", some 1⟩, ⟨"b.ts", none⟩] [] ""
        (fun p => p == "b.ts") (fun _ => 5)).failedFiles.length ≤
      (pass1State [⟨"a.ts", some 1⟩, ⟨"b.ts", none⟩] [] ""
        (fun p => p == "b.ts") (fun _ => 5)).totalFiles ∧
    (pass1State [⟨"a.ts", some 1⟩, ⟨"b.ts", none⟩] [] ""
        (fun p => p == "b.ts") (fun _ => 5)).totalFiles =
      (filterFiles [⟨"a.ts", some 1⟩, ⟨"b.ts", none⟩] []).length :=
  progress_invariant [⟨"a.ts", some 1⟩, ⟨"b.ts", none⟩] [] ""
    (fun p => p == "b.ts") (fun p => p == "b.ts") (fun _ => 5) (by decide)
    (pass1State [⟨"a.ts", some 1⟩, ⟨"b.ts", none⟩] [] ""
      (fun p => p == "b.ts") (fun _ => 5)) (by decide)

/-- Claim C4: the effective concurrency limit is always in [1,40]; unparseable
input gives the default 20, input below 1 gives 1, input above 40 gives 40,
and input within [1,40] is used unchanged. -/
theorem safeConcurrency_clamped (value : String) :
    1 ≤ safeConcurrency value ∧ safeConcurrency value ≤ 40 ∧
    (jsParseInt10 value = none → safeConcurrency value = 20) ∧
    (∀ c, jsParseInt10 value = some c → c < 1 → safeConcurrency value = 1) ∧
    (∀ c, jsParseInt10 value = some c → 40 < c → safeConcurrency value = 40) ∧
    (∀ c, jsParseInt10 value = some c → 1 ≤ c → c ≤ 40 → safeConcurrency value = c) := by
  cases h : jsParseInt10 value with
  | none =>
    have hsc : safeConcurrency value = 20 := by
      simp [safeConcurrency, h]
    refine ⟨by rw [hsc]; omega, by rw [hsc]; omega, fun _ => hsc, ?_, ?_, ?_⟩ <;>
      · intro c hc
        cases hc
  | some c =>
    have hsc : safeConcurrency value = max 1 (min 40 c) := by
      simp [safeConcurrency, h]
    refine ⟨by rw [hsc]; omega, by rw [hsc]; omega, ?_, ?_, ?_, ?_⟩
    · intro hx
      cases hx
    · intro c' hc' h1
      injection hc' with he
      subst he
      rw [hsc]
      omega
    · intro c' hc' h1
      injection hc' with he
      subst he
      rw [hsc]
      omega
    · intro c' hc' h1 h2
      injection hc' with he
      subst he
      rw [hsc]
      omega

/-- Claim C4 witness: concrete inputs hitting the default, low clamp, high
clamp, in-range and lower-bound cases. -/
theorem safeConcurrency_clamped_witness :
    safeConcurrency "abc" = 20 ∧ safeConcurrency "-3" = 1 ∧
    safeConcurrency "99" = 40 ∧ safeConcurrency "12" = 12 ∧
    1 ≤ safeConcurrency "7" :=
  ⟨(safeConcurrency_clamped "abc").2.2.1 (by decide),
    (safeConcurrency_clamped "-3").2.2.2.1 (-3) (by decide) (by decide),
    (safeConcurrency_clamped "99").2.2.2.2.1 99 (by decide) (by decide),
    (safeConcurrency_clamped "12").2.2.2.2.2 12 (by decide) (by decide) (by decide),
    (safeConcurrency_clamped "7").1⟩

/-- Claim C5: the empty filter set returns the list unchanged; otherwise the
output is the order-preserving sublist of descriptors whose full path matches
some suffix case-insensitively; and every `parseFilter` entry starts with `'.'`
and contains no uppercase letter. -/
theorem file_selector_spec (files : List RepoFile) (extensions : List String) :
    (extensions = [] → filterFiles files extensions = files) ∧
    (filterFiles files extensions).Sublist files ∧
    (extensions ≠ [] → ∀ file, file ∈ filterFiles files extensions ↔
      file ∈ files ∧
        extensions.any (fun e => endsWithS (toLowerS file.path) e) = true) ∧
    (∀ value entry, entry ∈ parseFilter value →
      startsWithS entry "." = true ∧ ∀ c ∈ entry.data, c.isUpper = false) := by
  refine ⟨?_, ?_, ?_, ?_⟩
  · intro h
    subst h
    rfl
  · unfold filterFiles
    split
    · exact List.Sublist.refl files
    · exact List.filter_sublist files
  · intro h file
    unfold filterFiles
    rw [if_neg (by simpa [List.length_eq_zero] using h)]
    simp [List.mem_filter]
  · intro value entry hentry
    obtain ⟨v, hv, rfl⟩ := List.mem_map.mp hentry
    have hvlow : ∀ c ∈ v.data, c.isUpper = false := by
      have hv2 := (List.mem_filter.mp hv).1
      obtain ⟨u, _, rfl⟩ := List.mem_map.mp hv2
      intro c hc
      obtain ⟨d, _, rfl⟩ := List.mem_map.mp hc
      exact toLower_not_upper d
    by_cases hdot : startsWithS v "."
    · rw [if_pos hdot]
      exact ⟨hdot, hvlow⟩
    · rw [if_neg hdot]
      constructor
      · show (String.mk ['.']).data.isPrefixOf ("." ++ v).data = true
        rw [String.data_append]
        simp [List.isPrefixOf]
      · intro c hc
        rw [String.data_append] at hc
        rcases List.mem_append.mp hc with h | h
        · simp only [List.mem_singleton] at h
          subst h
          decide
        · exact hvlow c h

/-- Claim C5 witness: the empty filter is the identity on a concrete list, a
concrete `.ts` membership instance, and a concrete `parseFilter` entry. -/
theorem file_selector_spec_witness :
    filterFiles [⟨"a.TS", none⟩, ⟨"b.md", some 2⟩] [] =
      [⟨"a.TS", none⟩, ⟨"b.md", some 2⟩] ∧
    ((⟨"a.TS", none⟩ : RepoFile) ∈ filterFiles [⟨"a.TS", none⟩, ⟨"b.md", some 2⟩] [".ts"] ↔
      (⟨"a.TS", none⟩ : RepoFile) ∈ [(⟨"a.TS", none⟩ : RepoFile), ⟨"b.md", some 2⟩] ∧
        [".ts"].any (fun e => endsWithS (toLowerS "a.TS") e) = true) ∧
    (startsWithS ".md" "." = true ∧ Char.isUpper 'm' = false) :=
  ⟨(file_selector_spec [⟨"a.TS", none⟩, ⟨"b.md", some 2⟩] []).1 rfl,
    (file_selector_spec [⟨"a.TS", none⟩, ⟨"b.md", some 2⟩] [".ts"]).2.2.1
      (by decide) ⟨"a.TS", none⟩,
    ((file_selector_spec [] []).2.2.2 " Md " ".md" (by decide)).1,
    ((file_selector_spec [] []).2.2.2 " Md " ".md" (by decide)).2 'm' (by decide)⟩

/-- Claim C6: filtering an already-filtered list with the same filter set
yields the same list. -/
theorem filterFiles_idempotent (files : List RepoFile) (extensions : List String) :
    filterFiles (filterFiles files extensions) extensions =
      filterFiles files extensions := by
  unfold filterFiles
  by_cases h : extensions.length = 0
  · simp [h]
  · simp only [if_neg h, List.filter_filter]
    exact List.filter_congr fun x _ => by rw [Bool.and_self]

/-- Claim C7: when some filtered path matches the disallowed keyword pattern,
the job aborts with the blocked error and the fetch log stays empty: zero
bytes are fetched for every item of the job. -/
theorem security_block_spec (files : List RepoFile) (filt : List String)
    (directory : String) (fail1 fail2 : String → Bool) (bytes : String → Nat)
    (hne : files.length ≠ 0)
    (hmatch : (filterFiles files filt).length ≠ 0)
    (hblk : (filterFiles files filt).any (fun file => blockedWordsTest file.path) = true) :
    downloadDirectory files filt directory fail1 fail2 bytes = (DirResult.blocked, []) := by
  unfold downloadDirectory
  rw [if_neg hne, if_neg hmatch, if_pos hblk]

/-- Claim C7 witness: a concrete listing containing `src/malware.ts` is
blocked with an empty fetch log. -/
theorem security_block_spec_witness :
    downloadDirectory [⟨"src/malware.ts", some 3⟩] [] "" (fun _ => false)
      (fun _ => false) (fun _ => 1) = (DirResult.blocked, []) :=
  security_block_spec [⟨"src/malware.ts", some 3⟩] [] "" (fun _ => false)
    (fun _ => false) (fun _ => 1) (by decide) (by decide) (by decide)

/-- Claim C8: the estimated total is the sum of the filtered descriptors'
reported sizes with unknown sizes contributing 0, it is the value set once
right after filtering, and it never changes in any reachable state of the
download passes. -/
theorem estimate_static_spec (files : List RepoFile) (filt : List String)
    (directory : String) (fail1 fail2 : String → Bool) (bytes : String → Nat) :
    estimateBytes (filterFiles files filt) =
      ((filterFiles files filt).map (fun f => f.size.getD 0)).sum ∧
    (initState files filt).estimatedBytes = estimateBytes (filterFiles files filt) ∧
    ∀ st ∈ jobTrace files filt directory fail1 fail2 bytes,
      st.estimatedBytes = estimateBytes (filterFiles files filt) := by
  refine ⟨?_, rfl, ?_⟩
  · rw [estimateBytes, estimateBytes_foldl]
    omega
  · intro st hst
    unfold jobTrace at hst
    rw [List.mem_append] at hst
    rcases hst with h | h
    · rw [mem_scanl] at h
      obtain ⟨n, hn, rfl⟩ := h
      rw [show ((filterFiles files filt).take n).foldl (processFile directory fail1 bytes)
          (initState files filt) = downloadBatch directory fail1 bytes (initState files filt)
          ((filterFiles files filt).take n) from rfl, downloadBatch_eq]
      rfl
    · split at h
      · simp at h
      · rw [mem_scanl] at h
        obtain ⟨n, hn, rfl⟩ := h
        rw [show ((retryTargets files filt directory fail1 bytes).take n).foldl
            (processFile directory fail2 bytes)
            { pass1State files filt directory fail1 bytes with failedFiles := [] } =
            downloadBatch directory fail2 bytes
              { pass1State files filt directory fail1 bytes with failedFiles := [] }
              ((retryTargets files filt directory fail1 bytes).take n) from rfl,
          downloadBatch_eq, pass1State_eq]

/-- Claim C8 witness: the estimate of the concrete job in which `b.ts`
(unknown size) fails pass 1 is static, instantiated at the pass-1 state. -/
theorem estimate_static_spec_witness :
    estimateBytes (filterFiles [⟨"a.ts", some 4⟩, ⟨"b.ts", none⟩] []) =
      ((filterFiles [⟨"a.ts", some 4⟩, ⟨"b.ts", none⟩] []).map
        (fun f => f.size.getD 0)).sum ∧
    (initState [⟨"a.ts", some 4⟩, ⟨"b.ts", none⟩] []).estimatedBytes =
      estimateBytes (filterFiles [⟨"a.ts", some 4⟩, ⟨"b.ts", none⟩] []) ∧
    (pass1State [⟨"a.ts", some 4⟩, ⟨"b.ts", none⟩] [] "" (fun p => p == "b.ts")
        (fun _ => 2)).estimatedBytes =
      estimateBytes (filterFiles [⟨"a.ts", some 4⟩, ⟨"b.ts", none⟩] []) :=
  ⟨(estimate_static_spec [⟨"a.ts", some 4⟩, ⟨"b.ts", none⟩] [] "" (fun p => p == "b.ts")
      (fun _ => false) (fun _ => 2)).1,
    (estimate_static_spec [⟨"a.ts", some 4⟩, ⟨"b.ts", none⟩] [] "" (fun p => p == "b.ts")
      (fun _ => false) (fun _ => 2)).2.1,
    (estimate_static_spec [⟨"a.ts", some 4⟩, ⟨"b.ts", none⟩] [] "" (fun p => p == "b.ts")
      (fun _ => false) (fun _ => 2)).2.2
      (pass1State [⟨"a.ts", some 4⟩, ⟨"b.ts", none⟩] [] "" (fun p => p == "b.ts")
        (fun _ => 2)) (by decide)⟩

/-- Claim C10: reads and writes of the recent-URL history never exceed 7
entries, and after a push the stored list has the pushed URL at the front and
contains it exactly once. -/
theorem recent_urls_invariant (stored : Option (List String)) (urls : List String)
    (url : String) :
    (writeRecentUrls urls).length ≤ 7 ∧
    (readRecentUrls stored).length ≤ 7 ∧
    (pushRecentUrl stored url).length ≤ 7 ∧
    (pushRecentUrl stored url).head? = some url ∧
    (pushRecentUrl stored url).count url = 1 := by
  refine ⟨?_, ?_, ?_, ?_, ?_⟩
  · simp [writeRecentUrls]
  · cases stored <;> simp [readRecentUrls]
  · simp [pushRecentUrl, writeRecentUrls]
  · rw [pushRecentUrl, writeRecentUrls, show (7 : Nat) = 6 + 1 from rfl,
      List.take_succ_cons]
    rfl
  · rw [pushRecentUrl, writeRecentUrls, show (7 : Nat) = 6 + 1 from rfl,
      List.take_succ_cons, List.count_cons_self]
    have hzero : ((readRecentUrls stored).filter (fun item => item ≠ url)).count url = 0 := by
      rw [List.count_eq_zero]
      intro hmem
      have := (List.mem_filter.mp hmem).2
      simp at this
    have hle := List.Sublist.count_le
      (List.take_sublist 6 ((readRecentUrls stored).filter (fun item => item ≠ url))) url
    omega

/-- Claim C2 counterexample: with `itemA` running and `itemB` pending, a
cancellation of `itemA` neither stops the queue loop (the pending `itemB` is
still run) nor leaves the queue untouched under the cancel control (`clearAll`
discards the pending entries). -/
theorem queue_cancel_counterexample :
    outcAB itemA = JobOutcome.cancelled ∧
    itemB ∈ (processQueue [itemA, itemB] outcAB).map Prod.fst ∧
    clearAllQueue [itemB] ≠ [itemB] := by
  refine ⟨rfl, ?_, by decide⟩
  decide

/-- Claim C2 amended: a cancelled job saves no archive, but the queue run loop
is not stopped by a cancelled job - every queued item is still run in order -
and the cancel control empties the pending queue entirely rather than leaving
it untouched. -/
theorem queue_cancel_amended (queue : List QueueItem) (outcome : QueueItem → JobOutcome) :
    jobSavesArchive JobOutcome.cancelled = false ∧
    (processQueue queue outcome).map Prod.fst = queue ∧
    clearAllQueue queue = [] := by
  refine ⟨rfl, ?_, rfl⟩
  induction queue with
  | nil => rfl
  | cons item rest ih => simp [processQueue, ih]

/-- Claim C9: the produced archive filename is non-empty and ends in `.zip`;
runs of forbidden characters are replaced by `'-'` (none survive), whitespace
runs collapse to single spaces and the name is trimmed, an input sanitizing to
the empty string yields `downloaded-directory.zip`, and a sanitized name that
already ends in `.zip` receives no second suffix. -/
theorem ensureZipFilename_spec (s : String) :
    (ensureZipFilename s).data ≠ [] ∧
    endsWithS (ensureZipFilename s) ".zip" = true ∧
    (sanitizeFilename s = "" → ensureZipFilename s = "downloaded-directory.zip") ∧
    (endsWithS (sanitizeFilename s) ".zip" = true →
      ensureZipFilename s = sanitizeFilename s) ∧
    (∀ c ∈ (sanitizeFilename s).data, forbiddenChar c = false) ∧
    (∀ c ∈ (sanitizeFilename s).data, Char.isWhitespace c = true → c = ' ') ∧
    List.Chain' (fun x y => ¬(Char.isWhitespace x = true ∧ Char.isWhitespace y = true))
      (sanitizeFilename s).data ∧
    (∀ c, (sanitizeFilename s).data.head? = some c → Char.isWhitespace c = false) ∧
    (∀ c, (sanitizeFilename s).data.getLast? = some c → Char.isWhitespace c = false) := by
  have hdefz : endsWithS "downloaded-directory" ".zip" = false := by decide
  refine ⟨?_, ?_, ?_, ?_, fun c hc => (sanitize_chars s c hc).1,
    fun c hc => (sanitize_chars s c hc).2, ?_, trimList_head _, trimList_getLast _⟩
  · by_cases hlen : (sanitizeFilename s).data.length > 0
    · by_cases hz : endsWithS (sanitizeFilename s) ".zip"
      · simp only [ensureZipFilename, hlen, if_true, hz]
        intro hd
        rw [hd] at hlen
        simp at hlen
      · simp only [ensureZipFilename, hlen, if_true, hz, Bool.false_eq_true, if_false,
          String.data_append]
        simp
    · simp only [ensureZipFilename, hlen, if_false, hdefz, Bool.false_eq_true,
        String.data_append]
      decide
  · by_cases hlen : (sanitizeFilename s).data.length > 0
    · by_cases hz : endsWithS (sanitizeFilename s) ".zip"
      · simpa only [ensureZipFilename, hlen, if_true, hz] using hz
      · simp only [ensureZipFilename, hlen, if_true, hz, Bool.false_eq_true, if_false]
        exact endsWithS_append_zip _
    · simp only [ensureZipFilename, hlen, if_false, hdefz, Bool.false_eq_true]
      decide
  · intro hcl
    simp only [ensureZipFilename, hcl]
    decide
  · intro hz
    have hlen : (sanitizeFilename s).data.length > 0 := by
      rcases Nat.eq_zero_or_pos (sanitizeFilename s).data.length with h0 | h
      · exfalso
        have hd : (sanitizeFilename s).data = [] := List.length_eq_zero.mp h0
        rw [endsWithS, hd] at hz
        have : (".zip".data).isSuffixOf ([] : List Char) = false := by decide
        rw [this] at hz
        cases hz
      · exact h
    simp only [ensureZipFilename, hlen, if_true, hz]
  · exact chain_trimList _ (fun x y h => fun hab => h ⟨hab.2, hab.1⟩) _
      (chain_replaceRunsGo _ _ _ _)

/-- Claim C9 witness: concrete inputs hitting the empty-sanitization default,
the existing `.zip` suffix, a surviving character, and a trimmed head. -/
theorem ensureZipFilename_spec_witness :
    ensureZipFilename "  " = "downloaded-directory.zip" ∧
    ensureZipFilename "a b.zip" = sanitizeFilename "a b.zip" ∧
    forbiddenChar 'a' = false ∧
    Char.isWhitespace 'a' = false :=
  ⟨(ensureZipFilename_spec "  ").2.2.1 (by decide),
    (ensureZipFilename_spec "a b.zip").2.2.2.1 (by decide),
    ((ensureZipFilename_spec "a b.zip").2.2.2.2.1 'a' (by decide)),
    ((ensureZipFilename_spec " a ").2.2.2.2.2.2.2.1 'a' (by decide))⟩

end DirDl
